import Mathlib

/-!
# Verification of the wellbeing-tracker aggregation pipeline

Shallow embedding of the incremental aggregation pipeline of the
wellbeing-tracker repository (`processor/processor.py`, schema from
`backend/models.py`), together with proofs and refutations of the frozen
claims about its natural-language specification.

Conventions of the embedding:
* SQLite `TEXT` timestamps written by the collector are
  `datetime.now().isoformat()` strings (`YYYY-MM-DDTHH:MM:SS[.ffffff]`).
  For well-formed strings, lexicographic string comparison coincides with
  chronological order at microsecond resolution, so a timestamp is modelled
  as an `Int` number of microseconds since the epoch.  An event timestamp
  the SQLite date functions cannot parse is modelled by `EvTs.invalid`,
  standing for a garbage string (such as `"garbage"`) that compares
  lexicographically after every well-formed timestamp string.
* `date` columns are `YYYY-MM-DD` strings; lexicographic order coincides
  with day order, so a date is modelled as an `Int` day number since the
  epoch, and an hour as an `Int` (values written by the code are 0..23,
  zero-padded by `printf('%02d', hour)` so string order is numeric order).
* Python dicts are modelled as association lists in insertion order with
  the insert-overwrites-in-place update `dictInsert`.
* Surrogate `id` and `created_at` columns are not part of the model: the
  processor never writes or reads them.
-/

namespace Wellbeing

/-! ## Category Resolver (`CategoryManager`) -/

/-- The flattened app→category mapping (`CategoryManager.app_mappings`),
a Python dict modelled as an association list in insertion order. -/
abbrev Mappings := List (String × String)

/-- Insertion into a Python dict: overwrite in place if the key is present,
otherwise append. -/
def dictInsert : Mappings → String → String → Mappings
  | [], k, v => [(k, v)]
  | (k', v') :: rest, k, v =>
    if k' = k then (k', v) :: rest else (k', v') :: dictInsert rest k v

/-- Dict lookup: value of the first (unique) entry with the given key. -/
def dictFind? (m : Mappings) (k : String) : Option String :=
  (m.find? (fun p => decide (p.1 = k))).map (·.2)

/-- `startsWithChars p s`: `p` is a prefix of `s`. -/
def startsWithChars : List Char → List Char → Bool
  | [], _ => true
  | _ :: _, [] => false
  | a :: p, b :: s => a = b && startsWithChars p s

/-- `listSub p s`: `p` occurs as a contiguous substring of `s`
(the semantics of Python's `p in s` on strings). -/
def listSub (p : List Char) : List Char → Bool
  | [] => startsWithChars p []
  | b :: s => startsWithChars p (b :: s) || listSub p s

/-- Python `pattern in app_lower` substring test on strings. -/
def strIn (p s : String) : Bool := listSub p.data s.data

/-- Python `str.lower()` (the inputs of this system are ASCII, on which
`Char.toLower` agrees with Python). -/
def strLower (s : String) : String := ⟨s.data.map Char.toLower⟩

/-- `CategoryManager.get_category`: empty name falls back to `"Other"`;
otherwise exact dict lookup of the lowercased name, then the first
pattern (in dict iteration order) that is a substring of the lowercased
name, then `"Other"`. -/
def getCategory (m : Mappings) (app : String) : String :=
  if app = "" then "Other"
  else
    let low := strLower app
    match dictFind? m low with
    | some c => c
    | none =>
      match m.find? (fun p => strIn p.1 low) with
      | some p => p.2
      | none => "Other"

/-- Modelled from the spec's words (§4.1): `classify` lowercases the name,
returns `"Other"` on the empty name, and otherwise resolves in order:
(1) exact match against the flattened map; (2) the category of the first
pattern, in map iteration order, that is a substring of the lowercased
name (the head of the list of all substring matches); (3) `"Other"`. -/
def specClassify (m : Mappings) (app : String) : String :=
  if app = "" then "Other"
  else
    let low := strLower app
    if h : (m.filter (fun p => decide (p.1 = low))) ≠ [] then
      ((m.filter (fun p => decide (p.1 = low))).head h).2
    else
      match (m.filter (fun p => strIn p.1 low)).head? with
      | some p => p.2
      | none => "Other"

/-! ## The category rule source (`app_categories.json`) -/

/-- Enough of Python's JSON value universe for the categories file. -/
inductive JVal where
  | dict (entries : List (String × JVal))
  | arr (elems : List JVal)
  | str (s : String)
  | num (n : Int)

/-- The state of the rule source as seen by `load_categories`:
the file is missing, the file exists but `json.load` raises
(not valid JSON), or it parses to a JSON value. -/
inductive Source where
  | missing
  | unparseable
  | parsed (data : JVal)

/-- `CategoryManager` state: `self.categories` and `self.app_mappings`. -/
structure Manager where
  categories : JVal
  app_mappings : Mappings

/-- The manager state set up by `__init__` before the first load:
`self.categories = {}`, `self.app_mappings = {}`. -/
def initManager : Manager := ⟨.dict [], []⟩

/-- Python `data.get(k, dflt)`: defaulted key lookup on a dict, raising
(`.error`) on any non-dict value. -/
def jGetD (v : JVal) (k : String) (dflt : JVal) : Except Unit JVal :=
  match v with
  | .dict d => .ok (((d.find? (fun p => decide (p.1 = k))).map (·.2)).getD dflt)
  | _ => .error ()

/-- Python iteration `for x in v`: lists yield elements, strings yield
one-character strings, dicts yield their keys, numbers raise. -/
def jElems : JVal → Except Unit (List JVal)
  | .arr l => .ok l
  | .str s => .ok (s.data.map (fun c => .str (String.mk [c])))
  | .dict d => .ok (d.map (fun p => JVal.str p.1))
  | .num _ => .error ()

/-- The inner loop `for app in info.get('apps', []):
self.app_mappings[app.lower()] = category`.  Returns the mappings built
so far and whether an exception was raised (`app.lower()` on a non-string
raises, keeping the partial dict). -/
def buildApps (cat : String) : List JVal → Mappings → Mappings × Bool
  | [], m => (m, false)
  | .str s :: rest, m => buildApps cat rest (dictInsert m (strLower s) cat)
  | _ :: _, m => (m, true)

/-- One iteration of `for category, info in self.categories.items()`:
`info.get('apps', [])` raises on a non-dict `info`; iterating the result
raises on a number; otherwise the inner loop runs. -/
def buildCat (m : Mappings) : String × JVal → Mappings × Bool
  | (cat, .dict d) =>
    match (d.find? (fun p => decide (p.1 = "apps"))).map (·.2) with
    | none => (m, false)
    | some apps =>
      match jElems apps with
      | .error _ => (m, true)
      | .ok elems => buildApps cat elems m
  | (_, _) => (m, true)

/-- The whole mapping-building loop, stopping at the first exception and
keeping the mappings accumulated up to that point. -/
def buildMappings : List (String × JVal) → Mappings → Mappings
  | [], m => m
  | e :: rest, m =>
    match buildCat m e with
    | (m', true) => m'
    | (m', false) => buildMappings rest m'

/-- `CategoryManager.load_categories`: a missing file or a `json.load`
failure leaves the manager unchanged (the `except` block only logs);
otherwise `self.categories = data.get('categories', {})` (raising on a
non-dict `data` with nothing assigned), `self.app_mappings = {}`, and the
building loop runs, any exception keeping the partial mappings. -/
def loadCategories (src : Source) (m : Manager) : Manager :=
  match src with
  | .missing => m
  | .unparseable => m
  | .parsed data =>
    match jGetD data "categories" (.dict []) with
    | .error _ => m
    | .ok cats =>
      match cats with
      | .dict entries => { categories := cats, app_mappings := buildMappings entries [] }
      | _ => { categories := cats, app_mappings := [] }

/-! ## The tables (`backend/models.py` schema, processor's view) -/

/-- A raw event timestamp string.  `valid us` is a well-formed
`isoformat()` string, identified with its microsecond count since the
epoch (lexicographic order on such strings is microsecond order).
`invalid` is a string SQLite's date functions cannot parse and which
compares lexicographically after every well-formed timestamp string
(such as `"garbage"`: lowercase letters sort after digits). -/
inductive EvTs where
  | valid (us : Int)
  | invalid
deriving DecidableEq

/-- A row of `events` as the hourly query reads it. -/
structure Event where
  ts : EvTs
  device : String
  app : String
  url : Option String
  dur : Int
deriving DecidableEq

/-- A row of `hourly_usage` (the columns the processor writes). -/
structure HourlyRow where
  date : Int
  hour : Int
  device : String
  app : String
  url : Option String
  category : String
  total : Int
  count : Int
deriving DecidableEq

/-- A row of `daily_usage` (the columns the processor writes). -/
structure DailyRow where
  date : Int
  device : String
  app : String
  url : Option String
  category : String
  total : Int
  count : Int
deriving DecidableEq

/-- A row of `daily_category_usage` (the columns the processor writes). -/
structure CatRow where
  date : Int
  device : String
  category : String
  total : Int
deriving DecidableEq

/-! ## Generic list helpers for SQL aggregates -/

/-- `SUM(f row)` over a list of rows. -/
def sumBy (l : List α) (f : α → Int) : Int := (l.map f).sum

/-- `MAX(...)` over a list: `none` on the empty list (SQL `NULL`). -/
def maxInt? : List Int → Option Int
  | [] => none
  | a :: t =>
    match maxInt? t with
    | none => some a
    | some m => some (max a m)

/-- `GROUP BY key`: the distinct keys paired with the rows of their group
(SQLite groups `NULL`s together, matching `Option` keys). -/
def fibers [DecidableEq κ] (key : α → κ) (l : List α) : List (κ × List α) :=
  ((l.map key).dedup).map (fun k => (k, l.filter (fun a => decide (key a = k))))

/-! ## Hourly Aggregator (`_process_hourly_aggregations`) -/

def usPerHour : Int := 3600000000
def usPerDay : Int := 86400000000

/-- `STRFTIME('%Y-%m-%d', ts)` and `STRFTIME('%H', ts)` of a well-formed
timestamp: its (day, hour) slot. -/
def hSlot (us : Int) : Int × Int := (us.fdiv usPerDay, (us.fmod usPerDay).fdiv usPerHour)

/-- The (date, hour) slot of an event; `none` when the timestamp is
unparseable (both `STRFTIME` calls return `NULL`). -/
def evSlot : EvTs → Option (Int × Int)
  | .valid t => some (hSlot t)
  | .invalid => none

/-- The SQL string comparison `timestamp > ?` against the well-formed,
fraction-free cutoff string: microsecond order for well-formed timestamps;
an unparseable garbage string that sorts after all well-formed ones always
passes. -/
def tsAfter (cut : Int) : EvTs → Bool
  | .valid t => decide (cut < t)
  | .invalid => true

/-- The value `date || ' ' || printf('%02d', hour) || ':59:59'` of a
bucket row, as microseconds: the last whole second of the bucket's hour. -/
def hourEndUs (r : HourlyRow) : Int := (r.date * 86400 + r.hour * 3600 + 3599) * 1000000

/-- `start_processing_ts`: the maximum bucket hour-end (falling back to
`'1970-01-01 00:00:00'`, i.e. 0, on an empty table) minus the 2-hour
lookback. -/
def hourlyCut (t : List HourlyRow) : Int :=
  (maxInt? (t.map hourEndUs)).getD 0 - 7200000000

/-- The `GROUP BY event_date, event_hour, device_type, app_name,
website_url` key of an event. -/
def hkey (e : Event) : Option (Int × Int) × String × String × Option String :=
  (evSlot e.ts, e.device, e.app, e.url)

/-- The fresh `hourly_usage` row inserted for one group: category resolved
through `get_category`, `total_seconds = SUM(duration_seconds)`,
`event_count = COUNT(*)`. -/
def mkHourlyRow (cm : Mappings) (g : (Option (Int × Int) × String × String × Option String) × List Event) : HourlyRow :=
  let dh := g.1.1.getD (0, 0)
  { date := dh.1, hour := dh.2, device := g.1.2.1, app := g.1.2.2.1, url := g.1.2.2.2,
    category := getCategory cm g.1.2.2.1, total := sumBy g.2 (·.dur),
    count := (g.2.length : Int) }

/-- One hourly pass as a transaction body: watermark, select, early return
on no data, delete the touched `(date, hour)` slots, insert the fresh
rows, commit.  A group whose `STRFTIME` date is `NULL` makes its `INSERT`
violate the `NOT NULL` constraint on `hourly_usage.date`, raising before
the commit (`.error`). -/
def hourlyPassE (cm : Mappings) (events : List Event) (t : List HourlyRow) :
    Except Unit (List HourlyRow) :=
  let sel := events.filter (fun e => tsAfter (hourlyCut t) e.ts)
  if sel.isEmpty then .ok t
  else
    let fs := fibers hkey sel
    if fs.any (fun g => decide (g.1.1 = none)) then .error ()
    else
      let touched := (fs.map (fun g => g.1.1)).dedup
      let kept := t.filter (fun r => !decide (some (r.date, r.hour) ∈ touched))
      .ok (kept ++ fs.map (mkHourlyRow cm))

/-- Whether a transaction body raised before its commit. -/
def failed : Except Unit (List HourlyRow) → Bool
  | .error _ => true
  | .ok _ => false

/-- The committed `hourly_usage` table after `_process_hourly_aggregations`:
the `except` block only logs, and an uncommitted transaction is rolled
back, so on error the table is unchanged. -/
def hourlyRun (cm : Mappings) (events : List Event) (t : List HourlyRow) : List HourlyRow :=
  match hourlyPassE cm events t with
  | .ok t' => t'
  | .error _ => t

/-! ## Daily Aggregator (`_process_daily_aggregations`) -/

/-- `start_processing_date`: `MAX(date)` over `daily_usage` (falling back
to `'1970-01-01'`, i.e. day 0, on an empty table) minus the 1-day
lookback. -/
def dailyStart (daily : List DailyRow) : Int :=
  (maxInt? (daily.map (·.date))).getD 0 - 1

/-- The hourly rows selected for re-aggregation: `WHERE date >= ?`. -/
def dailySel (hourly : List HourlyRow) (daily : List DailyRow) : List HourlyRow :=
  hourly.filter (fun r => decide (dailyStart daily ≤ r.date))

/-- The `GROUP BY date, device_type, app_name, website_url, category` key
of an hourly row. -/
def dkey (r : HourlyRow) : Int × String × String × Option String × String :=
  (r.date, r.device, r.app, r.url, r.category)

/-- The fresh `daily_usage` row for one group, summing `total_seconds`
and `event_count`. -/
def mkDailyRow (g : (Int × String × String × Option String × String) × List HourlyRow) : DailyRow :=
  { date := g.1.1, device := g.1.2.1, app := g.1.2.2.1, url := g.1.2.2.2.1,
    category := g.1.2.2.2.2, total := sumBy g.2 (·.total), count := sumBy g.2 (·.count) }

/-- The fresh daily rows of one pass (`daily_data` mapped to inserts). -/
def dailyNewRows (hourly : List HourlyRow) (daily : List DailyRow) : List DailyRow :=
  (fibers dkey (dailySel hourly daily)).map mkDailyRow

/-- `dates_to_update`: the distinct dates of the fresh daily rows. -/
def dailyTouched (hourly : List HourlyRow) (daily : List DailyRow) : List Int :=
  ((dailyNewRows hourly daily).map (·.date)).dedup

/-- The `GROUP BY date, device_type, category` key of a daily row. -/
def ckey (r : DailyRow) : Int × String × String := (r.date, r.device, r.category)

/-- The fresh `daily_category_usage` row for one group. -/
def mkCatRow (g : (Int × String × String) × List DailyRow) : CatRow :=
  { date := g.1.1, device := g.1.2.1, category := g.1.2.2, total := sumBy g.2 (·.total) }

/-- One daily pass: watermark, select hourly rows since the 1-day
lookback, early return on no data, delete `daily_usage` and
`daily_category_usage` rows of the touched dates, insert the fresh daily
rows, then re-derive the category rows from the just-written `daily_usage`
rows with `date >= start`, and commit. -/
def dailyPass (hourly : List HourlyRow) (daily : List DailyRow) (cat : List CatRow) :
    List DailyRow × List CatRow :=
  if (dailySel hourly daily).isEmpty then (daily, cat)
  else
    let touched := dailyTouched hourly daily
    let d' := daily.filter (fun r => !decide (r.date ∈ touched)) ++ dailyNewRows hourly daily
    let cg := (fibers ckey (d'.filter (fun r => decide (dailyStart daily ≤ r.date)))).map mkCatRow
    (d', cat.filter (fun r => !decide (r.date ∈ touched)) ++ cg)

/-! ## Orchestrator (`process_all`) -/

/-- `_update_app_categories_table`: delete every `app_categories` row,
then insert one row per entry of the current flattened mapping. -/
def updateAppCategoriesTable (m : Mappings) (_old : List (String × String)) :
    List (String × String) := m

/-- The database and manager state a processing cycle acts on. -/
structure PipeState where
  source : Source
  manager : Manager
  appCats : List (String × String)
  events : List Event
  hourly : List HourlyRow
  daily : List DailyRow
  dailyCat : List CatRow

/-- `process_all`: reload categories, rewrite `app_categories`, run the
hourly pass, then run the daily pass — unconditionally in this order, each
stage swallowing its own exceptions. -/
def processAll (s : PipeState) : PipeState :=
  let m := loadCategories s.source s.manager
  let h := hourlyRun m.app_mappings s.events s.hourly
  let dc := dailyPass h s.daily s.dailyCat
  { s with manager := m,
           appCats := updateAppCategoriesTable m.app_mappings s.appCats,
           hourly := h, daily := dc.1, dailyCat := dc.2 }

/-! ## Per-date totals (§8 aggregation consistency) -/

/-- `SUM(total_seconds) FROM daily_usage WHERE date = d`. -/
def usageTotal (daily : List DailyRow) (d : Int) : Int :=
  sumBy (daily.filter (fun r => decide (r.date = d))) (·.total)

/-- `SUM(total_seconds) FROM daily_category_usage WHERE date = d`. -/
def catTotal (cat : List CatRow) (d : Int) : Int :=
  sumBy (cat.filter (fun r => decide (r.date = d))) (·.total)

/-! ## Concrete scenarios used by the claims -/

/-- Three events of one app on 1970-01-01 (day 0): `08:10:00` for 30s,
`08:59:59.500000` for 20s (a timestamp with a fractional part in the last
second of hour 8), and `10:00:00` for 10s. -/
def fracEvents : List Event :=
  [⟨.valid 29400000000, "desktop", "a", none, 30⟩,
   ⟨.valid 32399500000, "desktop", "a", none, 20⟩,
   ⟨.valid 36000000000, "desktop", "a", none, 10⟩]

/-- The same scenario without the fractional-second event. -/
def baseEvents : List Event :=
  [⟨.valid 29400000000, "desktop", "a", none, 30⟩,
   ⟨.valid 36000000000, "desktop", "a", none, 10⟩]

/-- The late-arriving event `08:59:59.500000`, 20s. -/
def lateEvent : Event := ⟨.valid 32399500000, "desktop", "a", none, 20⟩

/-- One event carrying a negative duration. -/
def negEvents : List Event := [⟨.valid 1000000, "desktop", "a", none, -50⟩]

/-- An `events` table holding one row whose timestamp string the SQLite
date functions cannot parse (e.g. `"garbage"`). -/
def badEvents : List Event := [⟨.invalid, "desktop", "b", none, 5⟩]

/-- A committed `hourly_usage` table with one bucket for hour 8 of day 0. -/
def hourly0 : List HourlyRow := [⟨0, 8, "desktop", "a", none, "Other", 50, 2⟩]

/-- A pipeline state whose events table makes the hourly pass raise while
the daily pass still has committed hourly data to aggregate. -/
def crashState : PipeState := ⟨.missing, initManager, [], badEvents, hourly0, [], []⟩

/-- The categories source of §8's category-resolution-priority property:
`{"Work": {"apps": ["code"]}, "Browsers": {"apps": ["codefire"]}}`. -/
def rules4 : Source := .parsed (.dict [("categories", .dict
  [("Work", .dict [("apps", .arr [.str "code"])]),
   ("Browsers", .dict [("apps", .arr [.str "codefire"])])])])

/-- A valid-JSON but structurally malformed source: category `"A"` is
well-formed, category `"B"` maps to a number, so `info.get('apps', [])`
raises mid-loop. -/
def srcBad : Source := .parsed (.dict [("categories", .dict
  [("A", .dict [("apps", .arr [.str "x"])]), ("B", .num 5)])])

/-- A pipeline state with the §8 rule set and a stale `app_categories`
table. -/
def rulesState : PipeState := ⟨rules4, initManager, [("stale", "Old")], [], [], [], []⟩

/-- A two-bucket `hourly_usage` table for the consistency witness. -/
def twoBuckets : List HourlyRow :=
  [⟨0, 9, "desktop", "a", none, "Work", 30, 2⟩,
   ⟨0, 11, "desktop", "b", none, "Play", 20, 1⟩]

/-! ## List helper lemmas -/

lemma sumBy_cons (a : α) (l : List α) (f : α → Int) :
    sumBy (a :: l) f = f a + sumBy l f := by
  simp [sumBy]

lemma sumBy_append (l l' : List α) (f : α → Int) :
    sumBy (l ++ l') f = sumBy l f + sumBy l' f := by
  simp [sumBy]

lemma sumBy_map (g : β → α) (l : List β) (f : α → Int) :
    sumBy (l.map g) f = sumBy l (fun b => f (g b)) := by
  simp [sumBy, List.map_map]; rfl

lemma sumBy_zero (l : List α) : sumBy l (fun _ => (0 : Int)) = 0 := by
  induction l with
  | nil => rfl
  | cons a t ih => simp [sumBy_cons, ih]

lemma sumBy_add (l : List α) (f g : α → Int) :
    sumBy l (fun a => f a + g a) = sumBy l f + sumBy l g := by
  induction l with
  | nil => rfl
  | cons a t ih => simp [sumBy_cons, ih]; ring

lemma sumBy_congr {l : List α} {f g : α → Int} (h : ∀ a ∈ l, f a = g a) :
    sumBy l f = sumBy l g := by
  unfold sumBy
  rw [List.map_congr_left h]

lemma sumBy_if_single [DecidableEq κ] (K : List κ) (hK : K.Nodup) (x : κ) (c : Int) :
    sumBy K (fun k => if x = k then c else 0) = if x ∈ K then c else 0 := by
  induction K with
  | nil => simp [sumBy]
  | cons a t ih =>
    rw [sumBy_cons, ih hK.of_cons]
    by_cases hxa : x = a
    · subst hxa
      simp [hK.not_mem]
    · simp [hxa, Ne.symm hxa]

lemma map_filter_swap (g : α → β) (q : β → Bool) (l : List α) :
    (l.map g).filter q = (l.filter (fun a => q (g a))).map g := by
  induction l with
  | nil => rfl
  | cons a t ih =>
    by_cases h : q (g a) <;> simp [List.filter_cons, h, ih]

lemma find?_eq_head?_filter (p : α → Bool) (l : List α) :
    l.find? p = (l.filter p).head? := by
  induction l with
  | nil => rfl
  | cons a t ih =>
    by_cases h : p a
    · rw [List.find?_cons_of_pos _ h, List.filter_cons_of_pos h, List.head?_cons]
    · rw [List.find?_cons_of_neg _ h, List.filter_cons_of_neg h, ih]

/-- Partition of a sum over fibers: for a key list `K` that is duplicate-free
and covers `l`, summing the fiber sums over the keys satisfying `p` equals
summing over the rows whose key satisfies `p`. -/
lemma sum_over_keys [DecidableEq κ] (key : α → κ) (f : α → Int) (p : κ → Bool) :
    ∀ (l : List α) (K : List κ), K.Nodup → (∀ a ∈ l, key a ∈ K) →
      sumBy (K.filter p) (fun k => sumBy (l.filter (fun a => decide (key a = k))) f)
        = sumBy (l.filter (fun a => p (key a))) f := by
  intro l
  induction l with
  | nil =>
    intro K _ _
    simpa using sumBy_zero (K.filter p)
  | cons a t ih =>
    intro K hK hcov
    have hmem : key a ∈ K := hcov a (List.mem_cons_self a t)
    have hpt : ∀ k, sumBy ((a :: t).filter (fun x => decide (key x = k))) f
        = (if key a = k then f a else 0) + sumBy (t.filter (fun x => decide (key x = k))) f := by
      intro k
      by_cases h : key a = k <;> simp [List.filter_cons, h, sumBy_cons]
    calc sumBy (K.filter p) (fun k => sumBy ((a :: t).filter (fun x => decide (key x = k))) f)
        = sumBy (K.filter p)
            (fun k => (if key a = k then f a else 0)
              + sumBy (t.filter (fun x => decide (key x = k))) f) := by
          exact sumBy_congr (fun k _ => hpt k)
      _ = sumBy (K.filter p) (fun k => if key a = k then f a else 0)
            + sumBy (K.filter p) (fun k => sumBy (t.filter (fun x => decide (key x = k))) f) := by
          exact sumBy_add _ _ _
      _ = (if p (key a) then f a else 0) + sumBy (t.filter (fun x => p (key x))) f := by
          rw [ih K hK (fun x hx => hcov x (List.mem_cons_of_mem a hx))]
          rw [sumBy_if_single (K.filter p) (hK.filter p) (key a) (f a)]
          congr 1
          by_cases hp : p (key a)
          · simp [List.mem_filter, hmem, hp]
          · simp [List.mem_filter, hp]
      _ = sumBy ((a :: t).filter (fun x => p (key x))) f := by
          by_cases hp : p (key a) <;> simp [List.filter_cons, hp, sumBy_cons]

/-- Membership in the keys of `fibers`. -/
lemma mem_fibers_keys [DecidableEq κ] (key : α → κ) (l : List α) (k : κ) :
    k ∈ (l.map key).dedup ↔ ∃ a ∈ l, key a = k := by
  rw [List.mem_dedup, List.mem_map]

/-- The master grouping lemma: the `p`-filtered groups of `GROUP BY key`
carry the same total as the `p`-filtered rows. -/
lemma sumBy_fibers_filter [DecidableEq κ] (key : α → κ) (l : List α) (f : α → Int)
    (p : κ → Bool) :
    sumBy ((fibers key l).filter (fun g => p g.1)) (fun g => sumBy g.2 f)
      = sumBy (l.filter (fun a => p (key a))) f := by
  unfold fibers
  rw [map_filter_swap, sumBy_map]
  exact sum_over_keys key f p l ((l.map key).dedup) (List.nodup_dedup _)
    (fun a ha => (mem_fibers_keys key l (key a)).2 ⟨a, ha, rfl⟩)

/-- Generic per-date sum of an appended table. -/
lemma dateTotal_append (dt tf : α → Int) (l l' : List α) (d : Int) :
    sumBy ((l ++ l').filter (fun r => decide (dt r = d))) tf
      = sumBy (l.filter (fun r => decide (dt r = d))) tf
        + sumBy (l'.filter (fun r => decide (dt r = d))) tf := by
  rw [List.filter_append, sumBy_append]

/-- Rows whose dates all lie in `T` contribute nothing at a date `d ∉ T`. -/
lemma dateTotal_zero_of_not_mem (dt tf : α → Int) (l : List α) (T : List Int)
    (hT : ∀ r ∈ l, dt r ∈ T) (d : Int) (hd : d ∉ T) :
    sumBy (l.filter (fun r => decide (dt r = d))) tf = 0 := by
  have : l.filter (fun r => decide (dt r = d)) = [] := by
    rw [List.filter_eq_nil_iff]
    intro r hr
    simp only [decide_eq_true_eq]
    intro he
    exact hd (he ▸ hT r hr)
  rw [this]
  rfl

/-- Deleting the touched dates: at a date `d ∈ T` the kept rows contribute
nothing. -/
lemma dateTotal_kept_touched (dt tf : α → Int) (l : List α) (T : List Int)
    (d : Int) (hd : d ∈ T) :
    sumBy ((l.filter (fun r => !decide (dt r ∈ T))).filter (fun r => decide (dt r = d))) tf
      = 0 := by
  have : (l.filter (fun r => !decide (dt r ∈ T))).filter (fun r => decide (dt r = d)) = [] := by
    rw [List.filter_eq_nil_iff]
    intro r hr
    rcases List.mem_filter.1 hr with ⟨_, hnot⟩
    simp only [Bool.not_eq_true', decide_eq_false_iff_not] at hnot
    simp only [decide_eq_true_eq]
    intro he
    exact hnot (he ▸ hd)
  rw [this]
  rfl

/-- Deleting the touched dates: at a date `d ∉ T` the kept rows contribute
exactly what the original table contributed. -/
lemma dateTotal_kept_untouched (dt tf : α → Int) (l : List α) (T : List Int)
    (d : Int) (hd : d ∉ T) :
    sumBy ((l.filter (fun r => !decide (dt r ∈ T))).filter (fun r => decide (dt r = d))) tf
      = sumBy (l.filter (fun r => decide (dt r = d))) tf := by
  rw [List.filter_comm]
  congr 1
  apply List.filter_eq_self.2
  intro r hr
  rcases List.mem_filter.1 hr with ⟨_, hdr⟩
  simp only [decide_eq_true_eq] at hdr
  simp [hdr, hd]

/-- Restricting a table to `s ≤ date` before summing at date `d`. -/
lemma dateTotal_filter_ge (dt tf : α → Int) (l : List α) (s d : Int) :
    sumBy ((l.filter (fun r => decide (s ≤ dt r))).filter (fun r => decide (dt r = d))) tf
      = if s ≤ d then sumBy (l.filter (fun r => decide (dt r = d))) tf else 0 := by
  by_cases hs : s ≤ d
  · rw [List.filter_comm]
    simp only [hs, if_true]
    congr 1
    apply List.filter_eq_self.2
    intro r hr
    rcases List.mem_filter.1 hr with ⟨_, hdr⟩
    simp only [decide_eq_true_eq] at hdr
    simp [hdr, hs]
  · simp only [hs, if_false]
    have : (l.filter (fun r => decide (s ≤ dt r))).filter (fun r => decide (dt r = d)) = [] := by
      rw [List.filter_eq_nil_iff]
      intro r hr
      rcases List.mem_filter.1 hr with ⟨_, hsr⟩
      simp only [decide_eq_true_eq] at hsr
      simp only [decide_eq_true_eq]
      intro he
      exact hs (he ▸ hsr)
    rw [this]
    rfl

/-! ## Dict-key lemmas -/

/-- `dictInsert` keeps the key list unchanged when the key is present and
appends it otherwise. -/
lemma dictInsert_keys (m : Mappings) (k v : String) :
    (dictInsert m k v).map Prod.fst
      = if k ∈ m.map Prod.fst then m.map Prod.fst else m.map Prod.fst ++ [k] := by
  induction m with
  | nil => simp [dictInsert]
  | cons p t ih =>
    by_cases h : p.1 = k
    · simp [dictInsert, h]
    · simp only [dictInsert, h, if_false, List.map_cons, ih]
      by_cases hm : k ∈ t.map Prod.fst
      · simp [hm, Ne.symm h]
      · simp [hm, Ne.symm h]

/-- Python dicts have duplicate-free keys: `dictInsert` preserves that. -/
lemma dictInsert_nodup (m : Mappings) (k v : String)
    (h : (m.map Prod.fst).Nodup) : ((dictInsert m k v).map Prod.fst).Nodup := by
  rw [dictInsert_keys]
  by_cases hm : k ∈ m.map Prod.fst
  · simpa [hm] using h
  · simp only [hm, if_false]
    exact List.Nodup.append h (List.nodup_singleton k) (by simpa using hm)

lemma buildApps_nodup (cat : String) (elems : List JVal) (m : Mappings)
    (h : (m.map Prod.fst).Nodup) : (((buildApps cat elems m).1).map Prod.fst).Nodup := by
  induction elems generalizing m with
  | nil => exact h
  | cons e rest ih =>
    cases e with
    | str s => exact ih _ (dictInsert_nodup m (strLower s) cat h)
    | dict d => exact h
    | arr l => exact h
    | num n => exact h

lemma buildCat_nodup (m : Mappings) (e : String × JVal)
    (h : (m.map Prod.fst).Nodup) : (((buildCat m e).1).map Prod.fst).Nodup := by
  obtain ⟨cat, info⟩ := e
  cases info with
  | dict d =>
    simp only [buildCat]
    split
    · exact h
    · split
      · exact h
      · exact buildApps_nodup _ _ _ h
  | arr l => exact h
  | str s => exact h
  | num n => exact h

lemma buildMappings_nodup (entries : List (String × JVal)) (m : Mappings)
    (h : (m.map Prod.fst).Nodup) : ((buildMappings entries m).map Prod.fst).Nodup := by
  induction entries generalizing m with
  | nil => exact h
  | cons e rest ih =>
    unfold buildMappings
    rcases hbc : buildCat m e with ⟨m', err⟩
    have hm' : (m'.map Prod.fst).Nodup := by
      have := buildCat_nodup m e h
      rwa [hbc] at this
    cases err with
    | true => exact hm'
    | false => exact ih m' hm'

/-- `load_categories` preserves duplicate-freedom of the mapping keys. -/
lemma loadCategories_nodup (src : Source) (m : Manager)
    (h : (m.app_mappings.map Prod.fst).Nodup) :
    (((loadCategories src m).app_mappings).map Prod.fst).Nodup := by
  cases src with
  | missing => exact h
  | unparseable => exact h
  | parsed data =>
    simp only [loadCategories]
    split
    · exact h
    · split
      · exact buildMappings_nodup _ [] (by simp)
      · simp

/-- In a duplicate-free association list, filtering by a present key
yields exactly that entry. -/
lemma filter_key_unique (m : Mappings) (h : (m.map Prod.fst).Nodup)
    (k c : String) (hm : (k, c) ∈ m) :
    m.filter (fun p => decide (p.1 = k)) = [(k, c)] := by
  induction m with
  | nil => cases hm
  | cons p t ih =>
    rcases List.mem_cons.1 hm with he | ht
    · subst he
      rw [List.filter_cons_of_pos (by simp)]
      have hk : k ∉ t.map Prod.fst := by
        simpa using (List.nodup_cons.1 h).1
      have : t.filter (fun p => decide (p.1 = k)) = [] := by
        rw [List.filter_eq_nil_iff]
        intro r hr
        simp only [decide_eq_true_eq]
        intro he
        exact hk (he ▸ List.mem_map_of_mem Prod.fst hr)
      rw [this]
    · have hp : p.1 ≠ k := by
        intro he
        exact (List.nodup_cons.1 h).1
          (he ▸ List.mem_map_of_mem Prod.fst ht)
      rw [List.filter_cons_of_neg (by simpa using hp)]
      exact ih (List.nodup_cons.1 h).2 ht

/-- On the empty mapping every name classifies to `"Other"`. -/
lemma getCategory_nil (a : String) : getCategory [] a = "Other" := by
  unfold getCategory
  by_cases h : a = "" <;> simp [h, dictFind?]

/-! ## Daily-pass structural lemmas -/

/-- Every fresh daily row's date is a touched date. -/
lemma newRow_date_touched (hourly : List HourlyRow) (daily : List DailyRow)
    (r : DailyRow) (hr : r ∈ dailyNewRows hourly daily) :
    r.date ∈ dailyTouched hourly daily := by
  unfold dailyTouched
  exact List.mem_dedup.2 (List.mem_map_of_mem _ hr)

/-- Every touched date lies inside the reprocessing window. -/
lemma touched_date_ge_start (hourly : List HourlyRow) (daily : List DailyRow)
    (d : Int) (hd : d ∈ dailyTouched hourly daily) : dailyStart daily ≤ d := by
  unfold dailyTouched at hd
  rw [List.mem_dedup, List.mem_map] at hd
  obtain ⟨r, hr, hrd⟩ := hd
  unfold dailyNewRows at hr
  rw [List.mem_map] at hr
  obtain ⟨g, hg, hgr⟩ := hr
  unfold fibers at hg
  rw [List.mem_map] at hg
  obtain ⟨k, hk, hkg⟩ := hg
  rw [List.mem_dedup, List.mem_map] at hk
  obtain ⟨x, hx, hxk⟩ := hk
  have hxs : dailyStart daily ≤ x.date := by
    have := (List.mem_filter.1 hx).2
    simpa using this
  have hxd : x.date = d := by
    rw [← hrd, ← hgr, ← hkg, ← hxk]
    rfl
  rwa [hxd] at hxs

/-- The shape of a daily pass that found data to reprocess. -/
lemma dailyPass_eq_of_nonempty (hourly : List HourlyRow) (daily : List DailyRow)
    (cat : List CatRow) (hsel : (dailySel hourly daily).isEmpty = false) :
    dailyPass hourly daily cat
      = (daily.filter (fun r => !decide (r.date ∈ dailyTouched hourly daily))
          ++ dailyNewRows hourly daily,
         cat.filter (fun r => !decide (r.date ∈ dailyTouched hourly daily))
          ++ (fibers ckey ((daily.filter (fun r => !decide (r.date ∈ dailyTouched hourly daily))
                ++ dailyNewRows hourly daily).filter
                  (fun r => decide (dailyStart daily ≤ r.date)))).map mkCatRow) := by
  unfold dailyPass
  rw [hsel]
  rfl

/-- Per-date total of the rows of `daily_usage` added by the pass. -/
lemma usageTotal_append (l l' : List DailyRow) (d : Int) :
    usageTotal (l ++ l') d = usageTotal l d + usageTotal l' d := by
  unfold usageTotal
  exact dateTotal_append (fun r => r.date) (fun r => r.total) l l' d

/-- Per-date total of the rows of `daily_category_usage` added by the pass. -/
lemma catTotal_append (l l' : List CatRow) (d : Int) :
    catTotal (l ++ l') d = catTotal l d + catTotal l' d := by
  unfold catTotal
  exact dateTotal_append (fun r => r.date) (fun r => r.total) l l' d

/-- The re-derived category rows carry, at every date, exactly the total of
the `date >= start` slice of the freshly written `daily_usage` table. -/
lemma catTotal_rederived (l : List DailyRow) (d : Int) :
    catTotal ((fibers ckey l).map mkCatRow) d = usageTotal l d := by
  unfold catTotal usageTotal
  rw [map_filter_swap, sumBy_map]
  exact sumBy_fibers_filter ckey l (fun r => r.total) (fun k => decide (k.1 = d))

/-! ## The claims -/

/-- **C1** (code bug).  Running the hourly pass twice in a row over the same
events is *not* idempotent: after a first pass over `fracEvents` (30s at
`08:10:00`, 20s at `08:59:59.500000`, 10s at `10:00:00`), the watermark is
hour 10's end and the cutoff is the string `'...08:59:59'`, so the second
pass re-selects the fractional-second event alone for hour 8, wholesale
deletes hour 8's bucket and rebuilds it from that single event: the bucket
drops from 50s/2 events to 20s/1 event, so the bucket set changes (and 30
seconds of usage are permanently lost). -/
theorem hourly_second_pass_drops_fractional_second_data :
    hourlyRun [] fracEvents []
      = [⟨0, 8, "desktop", "a", none, "Other", 50, 2⟩,
         ⟨0, 10, "desktop", "a", none, "Other", 10, 1⟩]
    ∧ hourlyRun [] fracEvents (hourlyRun [] fracEvents [])
      = [⟨0, 8, "desktop", "a", none, "Other", 20, 1⟩,
         ⟨0, 10, "desktop", "a", none, "Other", 10, 1⟩]
    ∧ (↑(hourlyRun [] fracEvents (hourlyRun [] fracEvents [])) : Multiset HourlyRow)
        ≠ ↑(hourlyRun [] fracEvents []) :=
  ⟨by decide, by decide, by decide⟩

/-- **C2** (counterexample).  In `crashState` the hourly pass raises (an
unparseable event timestamp makes the `INSERT` violate the `NOT NULL`
constraint on `hourly_usage.date`), yet `process_all` still runs the daily
stage in the same cycle, which writes a fresh daily bucket — the claim
that the Daily Aggregator does not run in that cycle is false. -/
theorem daily_runs_despite_hourly_failure :
    failed (hourlyPassE (loadCategories crashState.source crashState.manager).app_mappings
        crashState.events crashState.hourly) = true
    ∧ (processAll crashState).daily ≠ crashState.daily
    ∧ (processAll crashState).daily = [⟨0, "desktop", "a", none, "Other", 50, 2⟩] :=
  ⟨by decide, by decide, by decide⟩

/-- **C2** (amended).  When the hourly stage of a cycle fails, its
uncommitted changes are rolled back, so the committed hourly table is
unchanged and no existing daily bucket is corrupted by the failure; the
failure is caught and logged inside the stage (the cycle is simply re-run
on the next tick); but the Daily Aggregator *does* still run in the same
cycle, over the last committed hourly data. -/
theorem hourly_failure_rolls_back_but_daily_still_runs (s : PipeState)
    (h : failed (hourlyPassE (loadCategories s.source s.manager).app_mappings
        s.events s.hourly) = true) :
    (processAll s).hourly = s.hourly
    ∧ (processAll s).daily = (dailyPass s.hourly s.daily s.dailyCat).1
    ∧ (processAll s).dailyCat = (dailyPass s.hourly s.daily s.dailyCat).2 := by
  have hrun : hourlyRun (loadCategories s.source s.manager).app_mappings s.events s.hourly
      = s.hourly := by
    unfold hourlyRun
    cases he : hourlyPassE (loadCategories s.source s.manager).app_mappings s.events s.hourly with
    | ok t' =>
      rw [he] at h
      exact absurd h (by simp [failed])
    | error e => rfl
  unfold processAll
  simp only [hrun]
  exact ⟨trivial, trivial, trivial⟩

theorem hourly_failure_rolls_back_but_daily_still_runs_witness :
    (processAll crashState).hourly = crashState.hourly
    ∧ (processAll crashState).daily = (dailyPass crashState.hourly crashState.daily crashState.dailyCat).1
    ∧ (processAll crashState).dailyCat = (dailyPass crashState.hourly crashState.daily crashState.dailyCat).2 :=
  hourly_failure_rolls_back_but_daily_still_runs crashState (by decide)

/-- **C3**.  `get_category` resolves exactly in the order the spec states:
`"Other"` on the empty name, otherwise the exact match in the flattened
map if present, otherwise the first pattern in map iteration order that is
a substring of the lowercased name, otherwise `"Other"` (`specClassify` is
that resolution order transcribed from the spec's words). -/
theorem get_category_resolution_order (m : Mappings) (a : String) :
    getCategory m a = specClassify m a := by
  unfold getCategory specClassify
  by_cases ha : a = ""
  · simp [ha]
  · simp only [ha, if_false]
    unfold dictFind?
    rw [find?_eq_head?_filter, find?_eq_head?_filter]
    cases hf : m.filter (fun p => decide (p.1 = strLower a)) with
    | nil => simp [hf]
    | cons hd tl => simp [hf]

/-- **C4** (counterexample).  With the §8 rule set loaded, the flattened
map contains the key `"codefire"`, the exact-match lookup fires first, and
`classify("CodeFire")` returns `"Browsers"` — not `"Work"` as the claim
states. -/
theorem codefire_classifies_as_browsers_not_work :
    getCategory (loadCategories rules4 initManager).app_mappings "CodeFire" ≠ "Work" := by
  decide

/-- **C4** (amended).  With rules `{"Work": ["code"], "Browsers":
["codefire"]}` loaded, `classify("CodeFire")` returns `"Browsers"`: the
exact match `"codefire"` wins over the substring pattern `"code"`.  Only
when the flattened map has no `"codefire"` entry (rules `{"Work":
["code"]}` alone) does the substring rule yield `"Work"`. -/
theorem codefire_exact_match_wins :
    (loadCategories rules4 initManager).app_mappings
      = [("code", "Work"), ("codefire", "Browsers")]
    ∧ getCategory (loadCategories rules4 initManager).app_mappings "CodeFire" = "Browsers"
    ∧ getCategory [("code", "Work")] "CodeFire" = "Work" :=
  ⟨by decide, by decide, by decide⟩

/-- **C5**.  Aggregation consistency after a daily pass: at every date,
the `daily_category_usage` total equals the `daily_usage` total.  The
hypotheses state the claim's ambient situation: the consistency invariant
held before the pass (`hpre`), and every existing daily row inside the
reprocessing window belongs to a date the pass rewrites (`hcov` — true of
every table the pipeline itself produced, since a daily row only exists
where committed hourly rows exist). -/
theorem daily_category_consistency (hourly : List HourlyRow) (daily : List DailyRow)
    (cat : List CatRow) (d : Int)
    (hpre : ∀ x : Int, catTotal cat x = usageTotal daily x)
    (hcov : ∀ r ∈ daily, dailyStart daily ≤ r.date → r.date ∈ dailyTouched hourly daily) :
    catTotal (dailyPass hourly daily cat).2 d = usageTotal (dailyPass hourly daily cat).1 d := by
  by_cases hsel : (dailySel hourly daily).isEmpty
  · unfold dailyPass
    simp [hsel, hpre d]
  · rw [dailyPass_eq_of_nonempty hourly daily cat (by simpa using hsel)]
    set S := dailyStart daily with hS
    set T := dailyTouched hourly daily with hT
    set G := dailyNewRows hourly daily with hG
    set K := daily.filter (fun r => !decide (r.date ∈ T)) with hK
    set L := (K ++ G).filter (fun r => decide (S ≤ r.date)) with hL
    have hCG : catTotal ((fibers ckey L).map mkCatRow) d = usageTotal L d :=
      catTotal_rederived L d
    have hLval : usageTotal L d = if S ≤ d then usageTotal (K ++ G) d else 0 := by
      rw [hL]
      exact dateTotal_filter_ge (fun r => r.date) (fun r => r.total) (K ++ G) S d
    have hGzero : d ∉ T → usageTotal G d = 0 := by
      intro hd
      unfold usageTotal
      exact dateTotal_zero_of_not_mem (fun r => r.date) (fun r => r.total) G T
        (fun r hr => newRow_date_touched hourly daily r hr) d hd
    rw [catTotal_append, usageTotal_append, hCG, hLval]
    by_cases hdT : d ∈ T
    · have hKzero : usageTotal K d = 0 := by
        rw [hK]
        exact dateTotal_kept_touched (fun r => r.date) (fun r => r.total) daily T d hdT
      have hCzero : catTotal (cat.filter (fun r => !decide (r.date ∈ T))) d = 0 := by
        unfold catTotal
        exact dateTotal_kept_touched (fun r => r.date) (fun r => r.total) cat T d hdT
      have hSd : S ≤ d := touched_date_ge_start hourly daily d hdT
      rw [hCzero, if_pos hSd, usageTotal_append, hKzero]
      ring
    · have hKkeep : usageTotal K d = usageTotal daily d := by
        rw [hK]
        exact dateTotal_kept_untouched (fun r => r.date) (fun r => r.total) daily T d hdT
      have hCkeep : catTotal (cat.filter (fun r => !decide (r.date ∈ T))) d = catTotal cat d := by
        unfold catTotal
        exact dateTotal_kept_untouched (fun r => r.date) (fun r => r.total) cat T d hdT
      rw [hCkeep, hKkeep, hGzero hdT, hpre d]
      by_cases hSd : S ≤ d
      · have hdaily0 : usageTotal daily d = 0 := by
          unfold usageTotal
          have : daily.filter (fun r => decide (r.date = d)) = [] := by
            rw [List.filter_eq_nil_iff]
            intro r hr
            simp only [decide_eq_true_eq]
            intro he
            exact hdT (he ▸ hcov r hr (he ▸ hSd))
          rw [this]
          rfl
        rw [if_pos hSd, usageTotal_append, hKkeep, hGzero hdT, hdaily0]
        ring
      · rw [if_neg hSd]

theorem daily_category_consistency_witness :
    catTotal (dailyPass twoBuckets [] []).2 0 = usageTotal (dailyPass twoBuckets [] []).1 0 :=
  daily_category_consistency twoBuckets [] [] 0 (fun _ => rfl) (by simp)

/-- **C6** (code bug).  A late event with timestamp `08:59:59.500000`
(strictly inside the 2-hour lookback window: the cutoff is
`'...08:59:59'`) appended after a completed pass over `baseEvents` does
land in a single hour-8 bucket row, but that bucket is rebuilt from the
late event alone: it holds 20s/1 event instead of the previous 30s plus
the late 20s with the count incremented to 2 — the existing 30s event is
dropped because its own timestamp no longer passes the cutoff. -/
theorem late_fractional_event_bucket_undercount :
    hourlyCut (hourlyRun [] baseEvents []) < 32399500000
    ∧ (hourlyRun [] (baseEvents ++ [lateEvent]) (hourlyRun [] baseEvents [])).filter
        (fun r => decide ((r.date, r.hour, r.device, r.app, r.url)
          = (0, 8, "desktop", "a", none)))
      = [⟨0, 8, "desktop", "a", none, "Other", 20, 1⟩]
    ∧ ((20 : Int), (1 : Int)) ≠ ((30 + 20 : Int), (1 + 1 : Int)) :=
  ⟨by decide, by decide, by decide⟩

/-- **C7** (counterexample).  A source that parses as JSON but is
structurally malformed (category `"B"` maps to the number 5, so
`info.get('apps', [])` raises mid-loop) leaves a *partial* rule set, not
an empty one: `"x"` still classifies to `"A"`, not `"Other"`. -/
theorem malformed_source_leaves_nonempty_rules :
    (loadCategories srcBad initManager).app_mappings = [("x", "A")]
    ∧ getCategory (loadCategories srcBad initManager).app_mappings "x" ≠ "Other" :=
  ⟨by decide, by decide⟩

/-- **C7** (amended).  `load_categories` never raises, and when the source
is missing or not parseable as JSON the manager is left unchanged — in
particular, from the initial empty state every app name then classifies to
`"Other"`.  (A parseable but structurally malformed source may instead
leave a partial rule set.) -/
theorem missing_or_invalid_source_keeps_manager (src : Source) (m : Manager) (a : String)
    (h : src = .missing ∨ src = .unparseable) :
    loadCategories src m = m
    ∧ getCategory (loadCategories src initManager).app_mappings a = "Other" := by
  obtain rfl | rfl := h <;> exact ⟨rfl, getCategory_nil a⟩

theorem missing_or_invalid_source_keeps_manager_witness :
    loadCategories .missing initManager = initManager
    ∧ getCategory (loadCategories .missing initManager).app_mappings "firefox" = "Other" :=
  missing_or_invalid_source_keeps_manager .missing initManager "firefox" (Or.inl rfl)

/-- **C8** (code bug).  An event with a negative `duration_seconds` inside
the selection window is not rejected: the pass sums it straight into the
bucket, producing a committed `hourly_usage` row with `total_seconds =
-50` (nothing is rejected per-row or logged; the spec's corrected contract
is not what the code does). -/
theorem negative_duration_aggregated :
    hourlyRun [] negEvents [] = [⟨0, 0, "desktop", "a", none, "Other", -50, 1⟩] := by
  decide

/-- **C9**.  The hourly pass is one transaction: `conn.commit()` is only
reached at the end, and on any exception the connection is abandoned
uncommitted, so SQLite rolls the deletes and inserts back — whenever the
pass body fails, the committed `hourly_usage` table is exactly its prior
state, so the pass is safe to retry. -/
theorem hourly_pass_atomic (cm : Mappings) (events : List Event) (t : List HourlyRow)
    (h : failed (hourlyPassE cm events t) = true) :
    hourlyRun cm events t = t := by
  cases he : hourlyPassE cm events t with
  | ok t' =>
    rw [he] at h
    exact absurd h (by simp [failed])
  | error e =>
    unfold hourlyRun
    rw [he]

theorem hourly_pass_atomic_witness :
    failed (hourlyPassE [] badEvents hourly0) = true
    ∧ hourlyRun [] badEvents hourly0 = hourly0 :=
  ⟨by decide, hourly_pass_atomic [] badEvents hourly0 (by decide)⟩

/-- **C10**.  Every cycle wholesale-replaces `app_categories`: after
`_update_app_categories_table` the table is exactly the freshly loaded
flattened lowercased mapping, independent of its prior contents, with
exactly one row per mapping entry (dict keys are duplicate-free, which
`load_categories` preserves). -/
theorem app_categories_wholesale_replace (s : PipeState) (k c : String)
    (h : (s.manager.app_mappings.map Prod.fst).Nodup)
    (hm : (k, c) ∈ (processAll s).appCats) :
    (processAll s).appCats = (loadCategories s.source s.manager).app_mappings
    ∧ (processAll s).appCats.filter (fun p => decide (p.1 = k)) = [(k, c)] := by
  have happ : (processAll s).appCats = (loadCategories s.source s.manager).app_mappings := rfl
  refine ⟨happ, ?_⟩
  rw [happ] at hm ⊢
  exact filter_key_unique _ (loadCategories_nodup s.source s.manager h) k c hm

theorem app_categories_wholesale_replace_witness :
    ("code", "Work") ∈ (processAll rulesState).appCats
    ∧ ((processAll rulesState).appCats
        = (loadCategories rulesState.source rulesState.manager).app_mappings
      ∧ (processAll rulesState).appCats.filter (fun p => decide (p.1 = "code"))
        = [("code", "Work")]) :=
  ⟨by decide, app_categories_wholesale_replace rulesState "code" "Work" (by decide) (by decide)⟩

end Wellbeing
